import Mathlib

/-!
# Verification of the SQL-result normalization and chart-encoding engine

Shallow embedding of the data-normalization / chart-encoding core of the
`text2sql_chatbot` frontend:

* `normalizeSqlResult`, `tryParseJsonArray`, `pickChart`, `sortRows`
  (from `src/frontend/src/features/chat/components/SqlResultVisualizer.tsx`);
* `pickEncodingKeys`, `normalizeRow`, `sqlTableToVegaLiteSpec`
  (from `src/frontend/src/features/chat/utils/vegaLiteFormatter.ts`).

JavaScript runtime values are modelled by the inductive type `JsonVal`:
finite numbers are modelled exactly as rationals (`Rat`); the non-finite
numbers `NaN` and `±Infinity` get their own constructors; `undefined` and
`null` are distinct constructors, as in JavaScript.  Objects are modelled
as insertion-ordered association lists, matching JavaScript's
insertion-order key iteration.  `JSON.parse` is modelled by a strict
recursive-descent JSON parser (`jsonParse`).  The one exception the code
can raise — the `TypeError` of the unguarded `Object.keys` on a nullish
record-array element — is modelled with `Except JsError`, so
normalization returns `.error .typeError`, `.ok none` (the `null`
sentinel) or `.ok (some table)`.
-/

/-- A JavaScript runtime value as it can occur in a JSON-shaped payload.
`num` holds a finite number (modelled exactly as a rational); `nan` is the
floating value NaN and `inf b` is Infinity (`b = true` for `-Infinity`).
`undef` is JavaScript's `undefined`, distinct from `null`. -/
inductive JsonVal : Type where
  | null : JsonVal
  | undef : JsonVal
  | bool : Bool → JsonVal
  | num : Rat → JsonVal
  | nan : JsonVal
  | inf : Bool → JsonVal
  | str : String → JsonVal
  | arr : List JsonVal → JsonVal
  | obj : List (String × JsonVal) → JsonVal

/-- A row of a normalized table: a JavaScript object, i.e. an
insertion-ordered association list from column name to value. -/
abbrev Row := List (String × JsonVal)

/-- `typeof v === "number"` together with `Number.isFinite(v)`
(the `isFiniteNumber` helper of both source files). -/
def JsonVal.isFiniteNum : JsonVal → Bool
  | .num _ => true
  | _ => false

/-- `typeof v === "string"`. -/
def JsonVal.isStr : JsonVal → Bool
  | .str _ => true
  | _ => false

/-- `v === null`. -/
def JsonVal.isNull : JsonVal → Bool
  | .null => true
  | _ => false

/-- `v === undefined`. -/
def JsonVal.isUndef : JsonVal → Bool
  | .undef => true
  | _ => false

/-- `v === null || v === undefined` (the nullish values of JavaScript). -/
def JsonVal.isNullish : JsonVal → Bool
  | .null => true
  | .undef => true
  | _ => false

/-- `Array.isArray(v)`. -/
def JsonVal.isArr : JsonVal → Bool
  | .arr _ => true
  | _ => false

/-- The `isPlainObject` helper of `SqlResultVisualizer.tsx`:
`typeof value === "object" && value !== null && !Array.isArray(value)`. -/
def isPlainObject : JsonVal → Bool
  | .obj _ => true
  | _ => false

/-- JavaScript falsiness `!v`: `null`, `undefined`, `false`, `0`, `NaN`
and the empty string are falsy; every object, array and `±Infinity` is
truthy. -/
def jsFalsy : JsonVal → Bool
  | .null => true
  | .undef => true
  | .bool b => !b
  | .num q => q == 0
  | .nan => true
  | .inf _ => false
  | .str s => s == ""
  | .arr _ => false
  | .obj _ => false

/-- First-match lookup in an association list, with the JavaScript default:
reading a missing property yields `undefined`. -/
def rowGet (r : Row) (k : String) : JsonVal :=
  match r.find? (fun p => p.1 == k) with
  | none => .undef
  | some p => p.2

/-- `r.map (·.1)`: the keys of a row in insertion order. -/
def rowKeys (r : Row) : List String := r.map (fun p => p.1)

/-- JavaScript property assignment `acc[k] = v` on an object: an existing
key keeps its position and gets the new value, a fresh key is appended. -/
def setKey (r : Row) (k : String) (v : JsonVal) : Row :=
  if r.any (fun p => p.1 == k) then
    r.map (fun p => if p.1 == k then (k, v) else p)
  else r ++ [(k, v)]

/-- Decide whether a string is a canonical array-index string
(`"0"`, `"1"`, …, no leading zeros), as used by JavaScript indexed access
`v[k]` on arrays and strings. -/
def isCanonicalIndex (s : String) : Bool :=
  let cs := s.toList
  !cs.isEmpty && cs.all (fun c => c.isDigit) &&
    (s == "0" || cs.headD '0' != '0')

/-- Parse a canonical index string to a natural number. -/
def parseIndex (s : String) : Option Nat :=
  if isCanonicalIndex s then some (s.toNat!) else none

/-- JavaScript property read `v?.[k]` for the values that can occur here:
object lookup; indexed access and `length` on arrays and strings; any
other base (including `null`/`undefined`, via optional chaining) yields
`undefined`. -/
def jsGetProp : JsonVal → String → JsonVal
  | .obj o, k => rowGet o k
  | .arr l, k =>
    if k == "length" then .num l.length
    else
      match parseIndex k with
      | some i => l.getD i .undef
      | none => .undef
  | .str s, k =>
    if k == "length" then .num s.length
    else
      match parseIndex k with
      | some i =>
        match s.toList.get? i with
        | some c => .str (String.mk [c])
        | none => .undef
      | none => .undef
  | _, _ => (.undef)

/-- The one exception the embedded code can raise: the `TypeError` that
`Object.keys` throws on `null` or `undefined`. -/
inductive JsError : Type where
  | typeError : JsError
deriving DecidableEq

/-- `Object.keys(v)`: own enumerable keys in insertion order for objects,
index strings for arrays and strings, `[]` for the other primitives
(they are wrapped by `ToObject` and have no own enumerable keys) — but a
thrown `TypeError` for `null` and `undefined`, which `ToObject` rejects. -/
def jsObjectKeys : JsonVal → Except JsError (List String)
  | .obj o => .ok ((o.map (fun p => p.1)).eraseDups)
  | .arr l => .ok ((List.range l.length).map (fun i => toString i))
  | .str s => .ok ((List.range s.length).map (fun i => toString i))
  | .null => .error .typeError
  | .undef => .error .typeError
  | _ => .ok []

/-- The `unionObjectKeys` helper of `SqlResultVisualizer.tsx`: the
first-occurrence-ordered union (a JavaScript `Set`) of `Object.keys(r)`
over all rows.  The loop is unguarded, so the `TypeError` of
`Object.keys` on a nullish element propagates. -/
def unionObjectKeys (l : List JsonVal) : Except JsError (List String) :=
  l.foldlM
    (fun acc r =>
      match jsObjectKeys r with
      | .error e => .error e
      | .ok ks =>
        .ok (ks.foldl (fun a k => if a.contains k then a else a ++ [k]) acc))
    []

/-- Build a row by the `columns.reduce((acc, c, idx) => { acc[c] = f c idx;
return acc }, {})` pattern common to all normalization branches: fold the
column list (with positions) over JavaScript property assignment. -/
def buildRow (cols : List String) (f : String → Nat → JsonVal) : Row :=
  cols.enum.foldl (fun acc p => setKey acc p.2 (f p.2 p.1)) []

/-- The canonical table shape `{ columns, rows }` both source files
operate on. -/
structure NormalizedTable : Type where
  columns : List String
  rows : List Row

/-- `Array.isArray(r) ? r : []`: the element list of a tuple-array
element, empty for non-arrays. -/
def elemList : JsonVal → List JsonVal
  | .arr a => a
  | _ => []

/-- `Math.max(...raw.map(r => Array.isArray(r) ? r.length : 0))` used by
the tuple-array case: a non-array element counts as length `0`. -/
def tupleMaxLen (raw : List JsonVal) : Nat :=
  raw.foldl (fun m r => max m (elemList r).length) 0

/-- The column names of the tuple-array case: `["label", "value"]` when
the maximum element length is exactly 2, else `col_1 .. col_N`. -/
def tupleColumns (maxLen : Nat) : List String :=
  if maxLen = 2 then ["label", "value"]
  else (List.range maxLen).map (fun i => "col_" ++ toString (i + 1))

/-- The array cases (cases 2 and 3 and the empty-array short-circuit) of
`normalizeSqlResult`.  The recursive call on a parsed JSON string always
receives an array, which is truthy and neither a plain object nor a
string, so the recursion lands exactly here.  `.error` is the uncaught
`TypeError` of `unionObjectKeys` on a record array containing a nullish
element; `.ok none` is the `null` sentinel. -/
def normalizeArray (raw : List JsonVal) : Except JsError (Option NormalizedTable) :=
  if raw.length = 0 then .ok (some ⟨[], []⟩)
  else
    match raw.headD .undef with
    | .obj _ =>
      -- Case 2: array of objects (the only throwing path)
      match unionObjectKeys raw with
      | .error e => .error e
      | .ok columns =>
        .ok (some ⟨columns,
          raw.map (fun r => buildRow columns (fun c _ => jsGetProp r c))⟩)
    | .arr _ =>
      -- Case 3: array of arrays (e.g. Python tuples)
      let columns := tupleColumns (tupleMaxLen raw)
      let rows := raw.map (fun r =>
        buildRow columns (fun _ idx => (elemList r).getD idx .undef))
      .ok (some ⟨columns, rows⟩)
    | _ => .ok none

/-! ## A strict JSON parser modelling `JSON.parse`

`JSON.parse` parses one JSON value and rejects any trailing non-whitespace
characters.  Numbers are modelled exactly as rationals (JavaScript rounds
them to the nearest double; none of the verified properties depends on
that rounding). -/

/-- JSON insignificant whitespace. -/
def isJsonWs (c : Char) : Bool :=
  c == ' ' || c == '\t' || c == '\n' || c == '\r'

/-- Drop leading JSON whitespace. -/
def skipWs : List Char → List Char
  | [] => []
  | c :: cs => if isJsonWs c then skipWs cs else c :: cs

/-- Value of a hex digit, if any (by code point: digits, then the
lowercase and uppercase letter ranges). -/
def hexVal (c : Char) : Option Nat :=
  let n := c.toNat
  if c.isDigit then some (n - 48)
  else if 97 ≤ n && n ≤ 102 then some (n - 87)
  else if 65 ≤ n && n ≤ 70 then some (n - 55)
  else none

/-- Parse the body of a JSON string literal after the opening quote,
returning the characters and the remaining input after the closing quote.
Handles the escape sequences of the JSON grammar and rejects raw control
characters. -/
def parseStringBody (cs : List Char) : Option (List Char × List Char) :=
  match cs with
  | [] => none
  | c :: rest =>
    if c == '"' then some ([], rest)
    else if c == '\\' then
      match rest with
      | [] => none
      | e :: rest2 =>
        if e == 'u' then
          match rest2 with
          | h1 :: h2 :: h3 :: h4 :: rest3 =>
            match hexVal h1, hexVal h2, hexVal h3, hexVal h4 with
            | some a, some b, some c2, some d =>
              (parseStringBody rest3).map (fun p =>
                (Char.ofNat (16 * (16 * (16 * a + b) + c2) + d) :: p.1, p.2))
            | _, _, _, _ => none
          | _ => none
        else
          let esc : Option Char :=
            if e == '"' then some '"'
            else if e == '\\' then some '\\'
            else if e == '/' then some '/'
            else if e == 'b' then some (Char.ofNat 8)
            else if e == 'f' then some (Char.ofNat 12)
            else if e == 'n' then some '\n'
            else if e == 'r' then some '\r'
            else if e == 't' then some '\t'
            else none
          match esc with
          | some ec => (parseStringBody rest2).map (fun p => (ec :: p.1, p.2))
          | none => none
    else if c.toNat < 32 then none
    else (parseStringBody rest).map (fun p => (c :: p.1, p.2))

/-- Parse the integer-part digits of a JSON number: `0`, or a nonzero
digit followed by digits. -/
def parseIntDigits (cs : List Char) : Option (List Char × List Char) :=
  match cs with
  | [] => none
  | c :: rest =>
    if c == '0' then some ([c], rest)
    else if c.isDigit then
      let p := rest.span Char.isDigit
      some (c :: p.1, p.2)
    else none

/-- Digits-to-natural-number accumulator. -/
def digitsToNat (cs : List Char) : Nat :=
  cs.foldl (fun n c => n * 10 + (c.toNat - '0'.toNat)) 0

/-- Parse a JSON number (sign, integer part, optional fraction, optional
exponent) into an exact rational. -/
def parseNumber (cs : List Char) : Option (Rat × List Char) :=
  let signed := match cs with
    | c :: rest => if c == '-' then (true, rest) else (false, cs)
    | [] => (false, cs)
  match parseIntDigits signed.2 with
  | none => none
  | some (intDs, rest1) =>
    let fracP : Option (List Char) × List Char :=
      match rest1 with
      | '.' :: rest2 =>
        let p := rest2.span Char.isDigit
        if p.1.isEmpty then (none, rest1) else (some p.1, p.2)
      | _ => (none, rest1)
    match fracP with
    | (none, _) =>
      mkNumber signed.1 intDs [] rest1
    | (some fds, rest2) =>
      mkNumber signed.1 intDs fds rest2
where
  /-- Assemble the rational after the optional exponent part. -/
  mkNumber (neg : Bool) (intDs fracDs : List Char) (rest : List Char) :
      Option (Rat × List Char) :=
    let expP : Option (Bool × List Char) × List Char :=
      match rest with
      | e :: rest2 =>
        if e == 'e' || e == 'E' then
          match rest2 with
          | s :: rest3 =>
            if s == '+' || s == '-' then
              let p := rest3.span Char.isDigit
              if p.1.isEmpty then (none, rest) else (some (s == '-', p.1), p.2)
            else
              let p := rest2.span Char.isDigit
              if p.1.isEmpty then (none, rest) else (some (false, p.1), p.2)
          | [] => (none, rest)
        else (none, rest)
      | [] => (none, rest)
    match expP with
    | (none, _) =>
      if expRequired rest then none
      else some (assemble neg intDs fracDs 0, rest)
    | (some (eneg, eds), rest2) =>
      let e : Int := if eneg then -(digitsToNat eds : Int) else (digitsToNat eds : Int)
      some (assemble neg intDs fracDs e, rest2)
  /-- An `e`/`E` with no valid exponent digits makes the number illegal. -/
  expRequired (rest : List Char) : Bool :=
    match rest with
    | e :: _ => e == 'e' || e == 'E'
    | [] => false
  /-- `±(int.frac) * 10^e` as an exact rational.  Plain integers (no
  fraction, no exponent) take a direct path so that they evaluate by
  kernel reduction; the general branch is mathematically the same value. -/
  assemble (neg : Bool) (intDs fracDs : List Char) (e : Int) : Rat :=
    let scaled : Rat :=
      if fracDs.isEmpty && e == 0 then (digitsToNat intDs : Rat)
      else
        ((digitsToNat intDs : Rat) +
          (digitsToNat fracDs : Rat) / ((10 : Rat) ^ fracDs.length)) * (10 : Rat) ^ e
    if neg then -scaled else scaled

/-- Check that the input starts with the given literal characters and
return the remainder. -/
def expectLit (lit : List Char) (cs : List Char) : Option (List Char) :=
  if cs.take lit.length == lit then some (cs.drop lit.length) else none

mutual

/-- Parse one JSON value (fuel-indexed recursive descent). -/
def parseValue : Nat → List Char → Option (JsonVal × List Char)
  | 0, _ => none
  | fuel + 1, cs =>
    match skipWs cs with
    | [] => none
    | c :: rest =>
      if c == 'n' then (expectLit ['u', 'l', 'l'] rest).map (fun r => (.null, r))
      else if c == 't' then (expectLit ['r', 'u', 'e'] rest).map (fun r => (.bool true, r))
      else if c == 'f' then (expectLit ['a', 'l', 's', 'e'] rest).map (fun r => (.bool false, r))
      else if c == '"' then (parseStringBody rest).map (fun p => (.str (String.mk p.1), p.2))
      else if c == '[' then
        match skipWs rest with
        | ']' :: rest2 => some (.arr [], rest2)
        | rest2 => (parseArrayItems fuel rest2).map (fun p => (.arr p.1, p.2))
      else if c == '{' then
        match skipWs rest with
        | '}' :: rest2 => some (.obj [], rest2)
        | rest2 => (parseObjMembers fuel [] rest2).map (fun p => (.obj p.1, p.2))
      else (parseNumber (c :: rest)).map (fun p => (.num p.1, p.2))

/-- Parse the comma-separated items of a non-empty JSON array, up to and
including the closing bracket. -/
def parseArrayItems : Nat → List Char → Option (List JsonVal × List Char)
  | 0, _ => none
  | fuel + 1, cs =>
    match parseValue fuel cs with
    | none => none
    | some (v, rest) =>
      match skipWs rest with
      | ',' :: rest2 => (parseArrayItems fuel rest2).map (fun p => (v :: p.1, p.2))
      | ']' :: rest2 => some ([v], rest2)
      | _ => none

/-- Parse the comma-separated members of a non-empty JSON object, up to
and including the closing brace.  A duplicate key overwrites the earlier
value in place, as `JSON.parse` does. -/
def parseObjMembers : Nat → Row → List Char → Option (Row × List Char)
  | 0, _, _ => none
  | fuel + 1, acc, cs =>
    match skipWs cs with
    | '"' :: rest =>
      match parseStringBody rest with
      | none => none
      | some (key, rest2) =>
        match skipWs rest2 with
        | ':' :: rest3 =>
          match parseValue fuel rest3 with
          | none => none
          | some (v, rest4) =>
            let acc2 := setKey acc (String.mk key) v
            match skipWs rest4 with
            | ',' :: rest5 => parseObjMembers fuel acc2 rest5
            | '}' :: rest5 => some (acc2, rest5)
            | _ => none
        | _ => none
    | _ => none

end

/-- `JSON.parse` on a character list: parse one value and reject trailing
non-whitespace input. -/
def jsonParse (cs : List Char) : Option JsonVal :=
  match parseValue (2 * cs.length + 2) cs with
  | some (v, rest) => if (skipWs rest).isEmpty then some v else none
  | none => none

/-- The `tryParseJsonArray` helper of `SqlResultVisualizer.tsx`: find the
first `[`, slice from there, `JSON.parse` the slice (a thrown parse error
is caught and becomes `null`), and keep the result only if it is an
array. -/
def tryParseJsonArray (text : String) : Option (List JsonVal) :=
  match text.toList.findIdx? (fun c => c == '[') with
  | none => none
  | some start =>
    match jsonParse (text.toList.drop start) with
    | some (.arr l) => some l
    | _ => none

/-- The `normalizeSqlResult` function of `SqlResultVisualizer.tsx`.
The recursive call on a successfully parsed embedded string receives an
array (truthy, not a plain object, not a string), so it is written here
directly as `normalizeArray`.  `.ok none` is the `null` sentinel;
`.error` is the uncaught `TypeError` of the record-array case (the only
`try/catch` in the source surrounds `JSON.parse`, nothing else). -/
def normalizeSqlResult (raw : JsonVal) : Except JsError (Option NormalizedTable) :=
  if jsFalsy raw then .ok none
  else
    match raw with
    | .obj o =>
      -- Case 1: already-normalized `{ columns, rows }` shape
      match rowGet o "columns", rowGet o "rows" with
      | .arr cols, .arr rws =>
        if cols.all JsonVal.isStr then
          let columns := cols.map (fun c => match c with | .str s => s | _ => "")
          .ok (some ⟨columns, rws.map (fun r =>
            let rowObj : JsonVal := if isPlainObject r then r else .obj []
            buildRow columns (fun c _ => jsGetProp rowObj c))⟩)
        else .ok none
      | _, _ => .ok none
    | .arr l => normalizeArray l
    | .str s =>
      -- Case 4: try to parse an embedded JSON array and recurse
      match tryParseJsonArray s with
      | some parsed => normalizeArray parsed
      | none => .ok none
    | _ => .ok none

/-! ## Value coercions `String(v)` and `Number(v)` -/

/-- Decimal rendering of a finite number.  Integers render exactly as in
JavaScript; for non-integral values the `a/b` form stands in for
JavaScript's decimal output (no verified property depends on it). -/
def ratToString (q : Rat) : String :=
  if q.den = 1 then toString q.num else toString q

mutual

/-- JavaScript `String(v)`.  Arrays stringify by comma-joining their
elements with nullish elements rendered empty; objects stringify to
`[object Object]`. -/
def jsString : JsonVal → String
  | .null => "null"
  | .undef => "undefined"
  | .bool b => if b then "true" else "false"
  | .num q => ratToString q
  | .nan => "NaN"
  | .inf b => if b then "-Infinity" else "Infinity"
  | .str s => s
  | .arr l => String.intercalate "," (jsStringElems l)
  | .obj _ => "[object Object]"

/-- The element renderings of an array under `String(...)`: nullish
elements render empty. -/
def jsStringElems : List JsonVal → List String
  | [] => []
  | v :: vs => (if v.isNullish then "" else jsString v) :: jsStringElems vs

end

/-- JavaScript `Number(string)`: trimmed empty input is `0`, otherwise a
signed decimal number (optionally `Infinity`) spanning the whole trimmed
input; anything else is `NaN`.  (The hex/octal/binary literal forms are
not modelled; no verified property exercises them.) -/
def jsStrToNum (s : String) : JsonVal :=
  let cs := ((s.toList.dropWhile isJsonWs).reverse.dropWhile isJsonWs).reverse
  if cs.isEmpty then .num 0
  else
    let p : Bool × List Char :=
      match cs with
      | '-' :: rest => (true, rest)
      | '+' :: rest => (false, rest)
      | _ => (false, cs)
    if p.2 == ['I', 'n', 'f', 'i', 'n', 'i', 't', 'y'] then .inf p.1
    else
      match parseNumber p.2 with
      | some (q, []) => .num (if p.1 then -q else q)
      | _ => .nan

/-- JavaScript `Number(v)`. -/
def jsNumber : JsonVal → JsonVal
  | .num q => .num q
  | .nan => .nan
  | .inf b => .inf b
  | .null => .num 0
  | .undef => .nan
  | .bool b => .num (if b then 1 else 0)
  | .str s => jsStrToNum s
  | .arr l => jsStrToNum (jsString (.arr l))
  | .obj o => jsStrToNum (jsString (.obj o))

/-- The nullish-coalescing operator `a ?? b`. -/
def jsNullish (a b : JsonVal) : JsonVal :=
  if a.isNullish then b else a

/-! ## Encoding selection -/

/-- The `{ xKey, yKey }` pair returned by `pickEncodingKeys`. -/
structure Encoding : Type where
  xKey : Option String
  yKey : Option String
deriving DecidableEq

/-- `pickEncodingKeys` from `vegaLiteFormatter.ts`: the first column with
a finite number in some row is the value key, the first column with a
string in some row — falling back to the first column — is the category
key; an empty column or row list yields two `null` keys. -/
def pickEncodingKeys (columns : List String) (rows : List Row) : Encoding :=
  if columns.length = 0 ∨ rows.length = 0 then ⟨none, none⟩
  else
    let numericCols := columns.filter (fun c => rows.any (fun r => (rowGet r c).isFiniteNum))
    let textCols := columns.filter (fun c => rows.any (fun r => (rowGet r c).isStr))
    let yKey := numericCols.head?
    let xKey := (textCols.head?).orElse (fun _ => columns.head?)
    ⟨xKey, yKey⟩

/-- JavaScript falsiness of a `string | null` value: `null` and the empty
string are falsy. -/
def jsOptFalsy : Option String → Bool
  | none => true
  | some s => s == ""

/-- The result shape of `pickChart`. -/
structure ChartPick : Type where
  xKey : Option String
  yKey : Option String
  chartData : List Row

/-- `pickChart` from `SqlResultVisualizer.tsx`: the same key selection as
`pickEncodingKeys`, plus a 30-row sample where the category value is
stringified (`String(r[xKey] ?? "")`) and the value is numerically
coerced (`Number(r[yKey])`). -/
def pickChart (columns : List String) (rows : List Row) : ChartPick :=
  if columns.length = 0 ∨ rows.length = 0 then ⟨none, none, []⟩
  else
    let numericCols := columns.filter (fun c => rows.any (fun r => (rowGet r c).isFiniteNum))
    let textCols := columns.filter (fun c => rows.any (fun r => (rowGet r c).isStr))
    let yKey := numericCols.head?
    let xKey := (textCols.head?).orElse (fun _ => columns.head?)
    if jsOptFalsy xKey || jsOptFalsy yKey then ⟨xKey, yKey, []⟩
    else
      match xKey, yKey with
      | some xk, some yk =>
        ⟨some xk, some yk,
          (rows.take 30).map (fun r =>
            setKey (setKey [] xk (.str (jsString (jsNullish (rowGet r xk) (.str "")))))
              yk (jsNumber (rowGet r yk)))⟩
      | _, _ => ⟨xKey, yKey, []⟩

/-! ## Row sorting

`sortRows` sorts a copy of the rows with JavaScript's stable
`Array.prototype.sort` under a numeric comparator.  The stable sort by a
consistent comparator is modelled as insertion sort on index-tagged rows,
ordered by the comparator's sign with the original index as tie-break —
the unique stable result.  `localeCompare` is modelled as code-point
string comparison. -/

/-- The four sort orders of `ChartControls.tsx`. -/
inductive SortBy : Type where
  | value_desc : SortBy
  | value_asc : SortBy
  | label_asc : SortBy
  | label_desc : SortBy
deriving DecidableEq

/-- `Object.values(r).find(isFiniteNumber) ?? 0`, numerically coerced:
the representative value of a row. -/
def representativeValue (r : Row) : Rat :=
  match (r.map (fun p => p.2)).find? JsonVal.isFiniteNum with
  | some (.num q) => q
  | _ => 0

/-- `Object.values(r).find(v => typeof v === "string") ?? ""`:
the representative label of a row. -/
def representativeLabel (r : Row) : String :=
  match (r.map (fun p => p.2)).find? JsonVal.isStr with
  | some (.str s) => s
  | _ => ""

/-- Lexicographic code-point comparison of character lists with results
in `{-1, 0, 1}`. -/
def cmpChars : List Char → List Char → Int
  | [], [] => 0
  | [], _ :: _ => -1
  | _ :: _, [] => 1
  | a :: as, b :: bs => if a < b then -1 else if b < a then 1 else cmpChars as bs

/-- `a.localeCompare(b)` modelled as code-point comparison with results
in `{-1, 0, 1}` (locale collation is abstracted to code-point order; the
verified properties depend only on it being a consistent comparator). -/
def localeCompare (a b : String) : Int :=
  cmpChars a.toList b.toList

/-- The comparator passed to `sort` for each order (a JavaScript number):
`value_asc` is `va - vb`, `label_asc` is `la.localeCompare(lb)`,
`label_desc` is `lb.localeCompare(la)`, and `value_desc` (also the
default) is `vb - va`. -/
def rowComparator (sortBy : SortBy) (a b : Row) : Rat :=
  let va := representativeValue a
  let vb := representativeValue b
  let la := representativeLabel a
  let lb := representativeLabel b
  match sortBy with
  | .value_asc => va - vb
  | .label_asc => (localeCompare la lb : Int)
  | .label_desc => (localeCompare lb la : Int)
  | .value_desc => vb - va

/-- The comparator's strict order (`rowComparator s a b < 0`), written
with direct comparisons so that it evaluates by kernel reduction. -/
def sortKeyLt (s : SortBy) (a b : Row) : Prop :=
  match s with
  | .value_asc => representativeValue a < representativeValue b
  | .value_desc => representativeValue b < representativeValue a
  | .label_asc => localeCompare (representativeLabel a) (representativeLabel b) < 0
  | .label_desc => localeCompare (representativeLabel b) (representativeLabel a) < 0

/-- The comparator's tie (`rowComparator s a b = 0`). -/
def sortKeyEq (s : SortBy) (a b : Row) : Prop :=
  match s with
  | .value_asc => representativeValue a = representativeValue b
  | .value_desc => representativeValue a = representativeValue b
  | .label_asc => localeCompare (representativeLabel a) (representativeLabel b) = 0
  | .label_desc => localeCompare (representativeLabel b) (representativeLabel a) = 0

instance (s : SortBy) (a b : Row) : Decidable (sortKeyLt s a b) :=
  match s with
  | .value_asc => inferInstanceAs (Decidable (representativeValue a < representativeValue b))
  | .value_desc => inferInstanceAs (Decidable (representativeValue b < representativeValue a))
  | .label_asc =>
    inferInstanceAs (Decidable (localeCompare (representativeLabel a) (representativeLabel b) < 0))
  | .label_desc =>
    inferInstanceAs (Decidable (localeCompare (representativeLabel b) (representativeLabel a) < 0))

instance (s : SortBy) (a b : Row) : Decidable (sortKeyEq s a b) :=
  match s with
  | .value_asc => inferInstanceAs (Decidable (representativeValue a = representativeValue b))
  | .value_desc => inferInstanceAs (Decidable (representativeValue a = representativeValue b))
  | .label_asc =>
    inferInstanceAs (Decidable (localeCompare (representativeLabel a) (representativeLabel b) = 0))
  | .label_desc =>
    inferInstanceAs (Decidable (localeCompare (representativeLabel b) (representativeLabel a) = 0))

/-- The linear order realized by a stable sort under the comparator:
strictly smaller comparator key, or a tie with the original position not
later.  Sorting index-tagged rows by this order is exactly the stable
sort. -/
def tagLe (s : SortBy) (a b : Nat × Row) : Prop :=
  sortKeyLt s a.2 b.2 ∨ (sortKeyEq s a.2 b.2 ∧ a.1 ≤ b.1)

instance (s : SortBy) : DecidableRel (tagLe s) := fun a b =>
  inferInstanceAs (Decidable (sortKeyLt s a.2 b.2 ∨ (sortKeyEq s a.2 b.2 ∧ a.1 ≤ b.1)))

/-- `sortRows` from `SqlResultVisualizer.tsx`: the stable sort of the
rows under `rowComparator`. -/
def sortRows (rows : List Row) (sortBy : SortBy) : List Row :=
  ((rows.enum).insertionSort (tagLe sortBy)).map (fun p => p.2)

/-! ## The declarative Vega-Lite spec generator -/

/-- One encoding channel of a Vega-Lite spec: the `field`/`type` pair
plus the optional `sort`, `axis.labelAngle`, `title` and `legend.title`
settings that the generator actually emits. -/
structure ChannelDef : Type where
  field : String
  vtype : String
  sort : Option String
  axisLabelAngle : Option Int
  title : Option String
  legendTitle : Option String
deriving DecidableEq

/-- The Vega-Lite spec shape emitted by `sqlTableToVegaLiteSpec`:
schema, embedded row data, size, mark (with the optional `innerRadius`
of the arc mark) and the used encoding channels. -/
structure VegaLiteSpec : Type where
  schema : String
  values : List Row
  width : Int
  height : Int
  markType : String
  markInnerRadius : Option Int
  encodingX : Option ChannelDef
  encodingY : Option ChannelDef
  encodingTheta : Option ChannelDef
  encodingColor : Option ChannelDef

/-- The Vega-Lite v5 schema URL constant. -/
def VEGA_LITE_SCHEMA : String := "https://vega.github.io/schema/vega-lite/v5.json"

/-- The options record of `sqlTableToVegaLiteSpec`.  `chartType` is a
string: at the TypeScript level it is a closed union, but the runtime
`switch` has a default branch, so unrecognized kinds are representable. -/
structure SpecOptions : Type where
  chartType : String
  xKey : Option String
  yKey : Option String
  limit : Option Nat
  width : Option Int
  height : Option Int

/-- `normalizeRow` from `vegaLiteFormatter.ts`: rebuild a row over the
column list with emission coercion — nullish becomes `null`, finite
numbers and strings pass through, anything else is stringified.  The
`xKey`/`yKey` parameters are unused, as in the source. -/
def normalizeRow (row : Row) (columns : List String) (_xKey _yKey : String) : Row :=
  columns.foldl
    (fun out c =>
      let v := rowGet row c
      setKey out c
        (if v.isNullish then .null
         else if v.isFiniteNum then v
         else if v.isStr then v
         else .str (jsString v)))
    []

/-- `sqlTableToVegaLiteSpec` from `vegaLiteFormatter.ts`. -/
def sqlTableToVegaLiteSpec (table : NormalizedTable) (options : SpecOptions) :
    Option VegaLiteSpec :=
  let columns := table.columns
  let rows := table.rows
  let limit := options.limit.getD 100
  let width := options.width.getD 400
  let height := options.height.getD 320
  if columns.length = 0 ∨ rows.length = 0 then none
  else
    let inferred := pickEncodingKeys columns rows
    let xKeyO := (options.xKey).orElse (fun _ => inferred.xKey)
    let yKeyO := (options.yKey).orElse (fun _ => inferred.yKey)
    if jsOptFalsy xKeyO || jsOptFalsy yKeyO then none
    else
      match xKeyO, yKeyO with
      | some xk, some yk =>
        let values := (rows.take limit).map (fun r => normalizeRow r columns xk yk)
        let ct := options.chartType
        if ct == "bar" then
          -- horizontal bar: y = category (sorted by -x), x = value
          some ⟨VEGA_LITE_SCHEMA, values, width, height, "bar", none,
            some ⟨yk, "quantitative", none, none, some yk, none⟩,
            some ⟨xk, "nominal", some "-x", none, some xk, none⟩,
            none, none⟩
        else if ct == "column" then
          some ⟨VEGA_LITE_SCHEMA, values, width, height, "bar", none,
            some ⟨xk, "nominal", none, some (-25), some xk, none⟩,
            some ⟨yk, "quantitative", none, none, some yk, none⟩,
            none, none⟩
        else if ct == "line" || ct == "point" then
          some ⟨VEGA_LITE_SCHEMA, values, width, height, ct, none,
            some ⟨xk, "nominal", none, some (-25), some xk, none⟩,
            some ⟨yk, "quantitative", none, none, some yk, none⟩,
            none, none⟩
        else if ct == "area" then
          some ⟨VEGA_LITE_SCHEMA, values, width, height, "area", none,
            some ⟨xk, "nominal", none, some (-25), some xk, none⟩,
            some ⟨yk, "quantitative", none, none, some yk, none⟩,
            none, none⟩
        else if ct == "arc" then
          -- donut / pie: theta = value, color = category
          some ⟨VEGA_LITE_SCHEMA, values, width, height, "arc", some 60,
            none, none,
            some ⟨yk, "quantitative", none, none, none, none⟩,
            some ⟨xk, "nominal", none, none, none, some xk⟩⟩
        else
          -- default branch: the column axis mapping, without the
          -- labelAngle axis setting
          some ⟨VEGA_LITE_SCHEMA, values, width, height, "bar", none,
            some ⟨xk, "nominal", none, none, some xk, none⟩,
            some ⟨yk, "quantitative", none, none, some yk, none⟩,
            none, none⟩
      | _, _ => none

/-! ## Basic lemmas about rows and row construction -/

theorem head?_filter {α : Type} (p : α → Bool) (l : List α) :
    (l.filter p).head? = l.find? p := by
  induction l with
  | nil => rfl
  | cons x xs ih =>
    by_cases h : p x
    · simp [List.filter_cons, List.find?_cons, h]
    · simp only [List.filter_cons, List.find?_cons, h]
      simp only [Bool.false_eq_true, if_false]
      exact ih

theorem rowGet_cons (x : String × JsonVal) (r : Row) (k : String) :
    rowGet (x :: r) k = if x.1 == k then x.2 else rowGet r k := by
  unfold rowGet
  rw [List.find?_cons]
  by_cases h : x.1 == k <;> simp [h]

theorem rowKeys_setKey (r : Row) (k : String) (v : JsonVal) :
    rowKeys (setKey r k v) = if r.any (fun p => p.1 == k) then rowKeys r else rowKeys r ++ [k] := by
  unfold setKey
  split
  · next h =>
    simp only [rowKeys, List.map_map]
    refine List.map_congr_left (fun p _ => ?_)
    by_cases hp : p.1 = k
    · simp [hp]
    · simp [hp]
  · simp [rowKeys]

theorem mem_rowKeys_setKey (r : Row) (k : String) (v : JsonVal) (c : String) :
    c ∈ rowKeys (setKey r k v) ↔ c ∈ rowKeys r ∨ c = k := by
  rw [rowKeys_setKey]
  split
  · next h =>
    rcases List.any_eq_true.mp h with ⟨p, hp, hpk⟩
    constructor
    · exact Or.inl
    · rintro (hc | rfl)
      · exact hc
      · exact (eq_of_beq hpk) ▸ List.mem_map_of_mem (fun q => q.1) hp
  · simp

theorem mem_rowKeys_foldl_setKey (f : String → Nat → JsonVal) (ps : List (Nat × String))
    (acc : Row) (c : String) :
    c ∈ rowKeys (ps.foldl (fun a p => setKey a p.2 (f p.2 p.1)) acc) ↔
      c ∈ rowKeys acc ∨ c ∈ ps.map (fun p => p.2) := by
  induction ps generalizing acc with
  | nil => simp
  | cons p ps ih =>
    simp only [List.foldl_cons, List.map_cons, List.mem_cons]
    rw [ih, mem_rowKeys_setKey]
    tauto

theorem mem_rowKeys_buildRow (cols : List String) (f : String → Nat → JsonVal) (c : String) :
    c ∈ rowKeys (buildRow cols f) ↔ c ∈ cols := by
  unfold buildRow
  rw [mem_rowKeys_foldl_setKey]
  simp [rowKeys, List.enum_map_snd]

theorem setKey_of_not_mem (r : Row) (k : String) (v : JsonVal) (h : ¬ k ∈ rowKeys r) :
    setKey r k v = r ++ [(k, v)] := by
  unfold setKey
  rw [if_neg]
  intro hany
  rcases List.any_eq_true.mp hany with ⟨p, hp, hpk⟩
  exact h ((eq_of_beq hpk) ▸ List.mem_map_of_mem (fun q => q.1) hp)

theorem foldl_setKey_eq_append (f : String → Nat → JsonVal) (ps : List (Nat × String))
    (acc : Row) (hdisj : ∀ p ∈ ps, ¬ p.2 ∈ rowKeys acc)
    (hnd : (ps.map (fun p => p.2)).Nodup) :
    ps.foldl (fun a p => setKey a p.2 (f p.2 p.1)) acc =
      acc ++ ps.map (fun p => (p.2, f p.2 p.1)) := by
  induction ps generalizing acc with
  | nil => simp
  | cons p ps ih =>
    simp only [List.foldl_cons, List.map_cons]
    rw [setKey_of_not_mem _ _ _ (hdisj p (List.mem_cons_self p ps))]
    have hnd' : (p.2 :: ps.map (fun x => x.2)).Nodup := by
      rw [List.map_cons] at hnd; exact hnd
    rw [ih]
    · simp
    · intro q hq
      simp only [rowKeys, List.map_append, List.map_cons, List.map_nil, List.mem_append,
        List.mem_singleton]
      rintro (hmem | hqk)
      · exact hdisj q (List.mem_cons_of_mem p hq) hmem
      · rcases List.nodup_cons.mp hnd' with ⟨hp, _⟩
        exact hp (by rw [← hqk]; exact List.mem_map_of_mem (fun x => x.2) hq)
    · exact (List.nodup_cons.mp hnd').2

theorem buildRow_eq_enumMap (cols : List String) (f : String → Nat → JsonVal)
    (hnd : cols.Nodup) :
    buildRow cols f = cols.enum.map (fun p => (p.2, f p.2 p.1)) := by
  unfold buildRow
  rw [foldl_setKey_eq_append]
  · simp
  · simp [rowKeys]
  · rw [List.enum_map_snd]
    exact hnd

theorem rowGet_enumFrom_map (f : String → Nat → JsonVal) (cols : List String)
    (n j : Nat) (hnd : cols.Nodup) (hj : j < cols.length) :
    rowGet ((List.enumFrom n cols).map (fun p => (p.2, f p.2 p.1))) (cols.getD j "") =
      f (cols.getD j "") (n + j) := by
  induction cols generalizing n j with
  | nil => exact absurd hj (by simp)
  | cons x xs ih =>
    rcases List.nodup_cons.mp hnd with ⟨hx, hxs⟩
    cases j with
    | zero =>
      simp [List.enumFrom, rowGet_cons]
    | succ j =>
      have hj' : j < xs.length := by simpa using hj
      have hne : x ≠ xs.getD j "" := by
        intro hcontra
        have hmem : xs.getD j "" ∈ xs := by
          rw [List.getD_eq_getElem xs "" hj']
          exact List.getElem_mem hj'
        exact hx (hcontra ▸ hmem)
      simp only [List.getD_cons_succ, List.enumFrom, List.map_cons]
      rw [rowGet_cons, if_neg (fun hbeq => hne (eq_of_beq hbeq))]
      rw [ih (n + 1) j hxs hj']
      congr 1
      omega

/-! ## Normalizer theorems -/

theorem normalizeArray_row_keys (l : List JsonVal) (t : NormalizedTable)
    (h : normalizeArray l = .ok (some t)) (r : Row) (hr : r ∈ t.rows) (c : String) :
    c ∈ rowKeys r ↔ c ∈ t.columns := by
  unfold normalizeArray at h
  split at h
  · cases h
    simp at hr
  · split at h
    · split at h
      · simp at h
      · cases h
        rcases List.mem_map.mp hr with ⟨r0, _, rfl⟩
        exact mem_rowKeys_buildRow _ _ c
    · cases h
      rcases List.mem_map.mp hr with ⟨r0, _, rfl⟩
      exact mem_rowKeys_buildRow _ _ c
    · exact absurd h (by simp)

/-- The direct-table example input `{columns: ["a","b"], rows: [{a: 1}]}`. -/
def exDirectTable : JsonVal :=
  .obj [("columns", .arr [.str "a", .str "b"]), ("rows", .arr [.obj [("a", .num 1)]])]

/-- C1 (amended): every row of any table produced by the normalizer has
exactly the key set of `columns`; a column absent in the source row is
filled with the `undefined` value (not `null`), as the direct-table
example shows. -/
theorem normalize_rows_have_columns_key_set :
    (∀ raw t, normalizeSqlResult raw = .ok (some t) →
      ∀ r ∈ t.rows, ∀ c, c ∈ rowKeys r ↔ c ∈ t.columns)
    ∧ normalizeSqlResult exDirectTable =
        .ok (some ⟨["a", "b"], [[("a", .num 1), ("b", .undef)]]⟩) := by
  constructor
  · intro raw t h r hr c
    cases raw with
    | null => simp [normalizeSqlResult] at h
    | undef => simp [normalizeSqlResult] at h
    | nan => simp [normalizeSqlResult] at h
    | bool b => simp [normalizeSqlResult] at h
    | num q => simp [normalizeSqlResult] at h
    | inf b => simp [normalizeSqlResult] at h
    | obj o =>
      simp only [normalizeSqlResult] at h
      rw [if_neg (by simp [jsFalsy])] at h
      split at h
      · next cols rws _ _ =>
        split at h
        · cases h
          rcases List.mem_map.mp hr with ⟨r0, _, rfl⟩
          exact mem_rowKeys_buildRow _ _ c
        · simp at h
      · simp at h
    | arr l =>
      simp only [normalizeSqlResult] at h
      rw [if_neg (by simp [jsFalsy])] at h
      exact normalizeArray_row_keys l t h r hr c
    | str s =>
      simp only [normalizeSqlResult] at h
      split at h
      · simp at h
      · split at h
        · next parsed _ =>
          exact normalizeArray_row_keys parsed t h r hr c
        · simp at h
  · rfl

/-- C1 counterexample: the direct-table example does not fill the absent
column `b` with `null` — the claimed output is not the computed one. -/
theorem normalize_missing_column_not_null :
    normalizeSqlResult exDirectTable ≠
      .ok (some ⟨["a", "b"], [[("a", .num 1), ("b", .null)]]⟩) := by
  intro h
  have h2 := congrArg
    (fun e : Except JsError (Option NormalizedTable) =>
      e.toOption.map (fun o => o.map
        (fun t => t.rows.map (fun r => (rowGet r "b").isUndef)))) h
  exact absurd h2 (by decide)

/-- C4: an empty array input yields the valid empty table, while `null`,
numbers (finite or not) and booleans yield `null`; the two sentinel
outcomes are distinct values. -/
theorem empty_array_vs_unsupported_input :
    normalizeSqlResult (.arr []) = .ok (some ⟨[], []⟩)
    ∧ normalizeSqlResult .null = .ok none
    ∧ (∀ q, normalizeSqlResult (.num q) = .ok none)
    ∧ normalizeSqlResult .nan = .ok none
    ∧ (∀ b, normalizeSqlResult (.inf b) = .ok none)
    ∧ (∀ b, normalizeSqlResult (.bool b) = .ok none)
    ∧ (Except.ok (some ⟨[], []⟩) : Except JsError (Option NormalizedTable))
        ≠ Except.ok none := by
  refine ⟨rfl, rfl, ?_, rfl, ?_, ?_, by simp⟩
  · intro q
    simp [normalizeSqlResult]
  · intro b
    simp [normalizeSqlResult]
  · intro b
    simp [normalizeSqlResult]

/-- C8: string normalization fails to `null` when no `[` occurs, or when
the parse of the slice from the first `[` fails; a successful
`tryParseJsonArray` always comes from parsing an array at the first `[`,
and normalization then recurses on the parsed array; the example input
`"prefix [1,2,3] suffix"` yields `null` (its slice `"[1,2,3] suffix"` has
trailing characters, so the parse throws and is caught). -/
theorem string_input_parse_and_recurse :
    (∀ s, s.toList.findIdx? (fun c => c == '[') = none →
      normalizeSqlResult (.str s) = .ok none)
    ∧ (∀ s i, s.toList.findIdx? (fun c => c == '[') = some i →
        jsonParse (s.toList.drop i) = none → normalizeSqlResult (.str s) = .ok none)
    ∧ (∀ s l, tryParseJsonArray s = some l →
        ∃ i, s.toList.findIdx? (fun c => c == '[') = some i
          ∧ jsonParse (s.toList.drop i) = some (.arr l))
    ∧ (∀ s l, tryParseJsonArray s = some l →
        normalizeSqlResult (.str s) = normalizeSqlResult (.arr l))
    ∧ normalizeSqlResult (.str "prefix [1,2,3] suffix") = .ok none := by
  have hparse : ∀ s, tryParseJsonArray s = none →
      normalizeSqlResult (.str s) = .ok none := by
    intro s hs
    simp only [normalizeSqlResult]
    split
    · rfl
    · rw [hs]
  refine ⟨?_, ?_, ?_, ?_, rfl⟩
  · intro s h
    apply hparse
    unfold tryParseJsonArray
    rw [h]
  · intro s i hidx hfail
    apply hparse
    unfold tryParseJsonArray
    rw [hidx]
    dsimp only
    rw [hfail]
  · intro s l h
    unfold tryParseJsonArray at h
    split at h
    · simp at h
    · next i hidx =>
      refine ⟨i, hidx, ?_⟩
      split at h
      · next v hv =>
        cases h
        exact hv
      · simp at h
  · intro s l h
    have hs : s ≠ "" := by
      intro hcontra
      rw [hcontra] at h
      simp [tryParseJsonArray] at h
    simp only [normalizeSqlResult]
    rw [if_neg (by simp [jsFalsy, hs]), if_neg (by simp [jsFalsy])]
    rw [h]

theorem sortRows_perm (rows : List Row) (s : SortBy) : (sortRows rows s).Perm rows := by
  unfold sortRows
  have h := (List.perm_insertionSort (tagLe s) rows.enum).map (fun p : Nat × Row => p.2)
  rwa [show (rows.enum.map (fun p : Nat × Row => p.2)) = rows from List.enum_map_snd rows] at h

/-- C3 (code bug): normalization is not exception-free.  A record array
with a nullish element after the first reaches the unguarded
`Object.keys` loop of `unionObjectKeys` and throws a `TypeError` — also
when the array arrives embedded in a JSON string, where the `try/catch`
only surrounds `JSON.parse` and not the recursive normalization.  A
*leading* `null` does not throw: the shape guards inspect only the first
element, so the input falls through to the `null` sentinel. -/
theorem normalization_throws_on_nullish_record_element :
    normalizeSqlResult (.arr [.obj [("a", .num 1)], .null]) = .error .typeError
    ∧ normalizeSqlResult (.str "see [\x7b\"a\": 1\x7d, null]") = .error .typeError
    ∧ normalizeSqlResult (.arr [.null, .obj [("a", .num 1)]]) = .ok none :=
  ⟨rfl, rfl, rfl⟩

/-- C8 witness: the no-bracket conjunct at `"abc"` and the
failed-slice-parse conjunct at `"a[1"`. -/
theorem string_input_parse_and_recurse_witness :
    normalizeSqlResult (.str "abc") = .ok none
    ∧ normalizeSqlResult (.str "a[1") = .ok none :=
  ⟨string_input_parse_and_recurse.1 "abc" rfl,
   string_input_parse_and_recurse.2.1 "a[1" 1 rfl rfl⟩

/-! ## Encoding-selection lemmas -/

theorem pickEncodingKeys_of_empty (cols : List String) (rows : List Row)
    (h : cols = [] ∨ rows = []) : pickEncodingKeys cols rows = ⟨none, none⟩ := by
  unfold pickEncodingKeys
  rw [if_pos]
  rcases h with h | h <;> simp [h]

theorem pickEncodingKeys_not_empty_cond (cols : List String) (rows : List Row)
    (hc : cols ≠ []) (hr : rows ≠ []) : ¬(cols.length = 0 ∨ rows.length = 0) := by
  simp only [List.length_eq_zero, not_or]
  exact ⟨hc, hr⟩

theorem pickEncodingKeys_yKey_eq (cols : List String) (rows : List Row)
    (hc : cols ≠ []) (hr : rows ≠ []) :
    (pickEncodingKeys cols rows).yKey =
      cols.find? (fun c => rows.any (fun r => (rowGet r c).isFiniteNum)) := by
  unfold pickEncodingKeys
  rw [if_neg (pickEncodingKeys_not_empty_cond cols rows hc hr)]
  exact head?_filter _ _

theorem pickEncodingKeys_xKey_eq (cols : List String) (rows : List Row)
    (hc : cols ≠ []) (hr : rows ≠ []) :
    (pickEncodingKeys cols rows).xKey =
      ((cols.find? (fun c => rows.any (fun r => (rowGet r c).isStr))).orElse
        (fun _ => cols.head?)) := by
  unfold pickEncodingKeys
  rw [if_neg (pickEncodingKeys_not_empty_cond cols rows hc hr)]
  dsimp only
  rw [head?_filter]

theorem pickChart_keys_eq (cols : List String) (rows : List Row) :
    (pickChart cols rows).xKey = (pickEncodingKeys cols rows).xKey
    ∧ (pickChart cols rows).yKey = (pickEncodingKeys cols rows).yKey := by
  unfold pickChart pickEncodingKeys
  by_cases h : cols.length = 0 ∨ rows.length = 0
  · rw [if_pos h, if_pos h]
    exact ⟨rfl, rfl⟩
  · rw [if_neg h, if_neg h]
    dsimp only
    split
    · exact ⟨rfl, rfl⟩
    · split
      · next xk yk hx hy => exact ⟨hx.symm, hy.symm⟩
      · exact ⟨rfl, rfl⟩

/-- C5: the encoding selector scans columns in order — the first column
with a finite number in some row is the value key, the first column with
a string in some row is the category key, falling back to the first
column when no textual column exists; empty columns or rows give two
`null` keys. -/
theorem encoding_selector_scan_order (cols : List String) (rows : List Row) :
    ((cols = [] ∨ rows = []) → pickEncodingKeys cols rows = ⟨none, none⟩)
    ∧ (cols ≠ [] → rows ≠ [] →
        (pickEncodingKeys cols rows).yKey =
          cols.find? (fun c => rows.any (fun r => (rowGet r c).isFiniteNum))
        ∧ (pickEncodingKeys cols rows).xKey =
          ((cols.find? (fun c => rows.any (fun r => (rowGet r c).isStr))).orElse
            (fun _ => cols.head?))
        ∧ ((∀ c ∈ cols, ∀ r ∈ rows, (rowGet r c).isStr = false) →
            (pickEncodingKeys cols rows).xKey = cols.head?)) := by
  refine ⟨pickEncodingKeys_of_empty cols rows, fun hc hr => ⟨?_, ?_, ?_⟩⟩
  · exact pickEncodingKeys_yKey_eq cols rows hc hr
  · exact pickEncodingKeys_xKey_eq cols rows hc hr
  · intro hall
    rw [pickEncodingKeys_xKey_eq cols rows hc hr]
    have hnone : cols.find? (fun c => rows.any (fun r => (rowGet r c).isStr)) = none := by
      rw [List.find?_eq_none]
      intro c hcmem
      simp only [List.any_eq_true, not_exists, not_and]
      intro r hrmem
      simp [hall c hcmem r hrmem]
    rw [hnone]
    rfl

/-- C5 witness: on the one-column numeric table the value key is the
scan result `some "n"` and the category key falls back to the first
column. -/
theorem encoding_selector_scan_order_witness :
    (pickEncodingKeys ["n"] [[("n", .num 7)]]).yKey =
      (["n"].find? (fun c => [[("n", JsonVal.num 7)]].any (fun r => (rowGet r c).isFiniteNum)))
    ∧ (pickEncodingKeys ["n"] [[("n", .num 7)]]).xKey = (["n"] : List String).head? := by
  have h := encoding_selector_scan_order ["n"] [[("n", .num 7)]]
  refine ⟨(h.2 (by simp) (by simp)).1, (h.2 (by simp) (by simp)).2.2 ?_⟩
  intro c hc r hr
  simp at hc hr
  subst hc
  subst hr
  rfl

/-- C2: the declarative generator's key selection (`pickEncodingKeys`)
and the chart-rendering descriptor's key selection (`pickChart`) agree on
both keys for every table, and both are deterministic functions of the
table. -/
theorem encoding_selection_shared_and_deterministic (cols : List String) (rows : List Row) :
    ((pickChart cols rows).xKey = (pickEncodingKeys cols rows).xKey
      ∧ (pickChart cols rows).yKey = (pickEncodingKeys cols rows).yKey)
    ∧ (∀ cols2 rows2, cols2 = cols → rows2 = rows →
        pickEncodingKeys cols2 rows2 = pickEncodingKeys cols rows
        ∧ pickChart cols2 rows2 = pickChart cols rows) := by
  refine ⟨pickChart_keys_eq cols rows, ?_⟩
  intro cols2 rows2 h1 h2
  subst h1
  subst h2
  exact ⟨rfl, rfl⟩

/-- C2 witness: agreement and determinism at a concrete table. -/
theorem encoding_selection_shared_witness :
    pickEncodingKeys ["label"] [[("label", .str "x")]] =
      pickEncodingKeys ["label"] [[("label", .str "x")]]
    ∧ (pickChart ["label"] [[("label", .str "x")]]).xKey =
      (pickEncodingKeys ["label"] [[("label", .str "x")]]).xKey :=
  ⟨((encoding_selection_shared_and_deterministic ["label"] [[("label", .str "x")]]).2
      ["label"] [[("label", .str "x")]] rfl rfl).1,
   (encoding_selection_shared_and_deterministic ["label"] [[("label", .str "x")]]).1.1⟩

/-- C10: on a non-empty table the category key is never `null` — the
fallback to the first column guarantees a value in both selector
implementations, so only the value key can be `null`. -/
theorem category_key_never_null_on_nonempty (cols : List String) (rows : List Row)
    (hc : cols ≠ []) (hr : rows ≠ []) :
    (pickEncodingKeys cols rows).xKey ≠ none ∧ (pickChart cols rows).xKey ≠ none := by
  have hx := pickEncodingKeys_xKey_eq cols rows hc hr
  have hhead : ∃ x, cols.head? = some x := by
    cases cols with
    | nil => exact absurd rfl hc
    | cons x xs => exact ⟨x, rfl⟩
  rcases hhead with ⟨x, hxhead⟩
  have hne : (pickEncodingKeys cols rows).xKey ≠ none := by
    rw [hx]
    cases hfind : cols.find? (fun c => rows.any (fun r => (rowGet r c).isStr)) with
    | none => simp [Option.orElse, hxhead]
    | some y => simp [Option.orElse]
  exact ⟨hne, by rw [(pickChart_keys_eq cols rows).1]; exact hne⟩

/-- C10 witness: at the numeric one-column table both selectors return
the fallback category key `some "n"`. -/
theorem category_key_never_null_witness :
    (pickEncodingKeys ["n"] [[("n", .num 7)]]).xKey ≠ none
    ∧ (pickChart ["n"] [[("n", .num 7)]]).xKey ≠ none :=
  category_key_never_null_on_nonempty ["n"] [[("n", .num 7)]]
    (by simp) (by simp)

/-- C1 witness: the key-set property instantiated at the direct-table
example and its computed row. -/
theorem normalize_rows_have_columns_key_set_witness :
    "b" ∈ rowKeys [("a", JsonVal.num 1), ("b", JsonVal.undef)] ↔ "b" ∈ ["a", "b"] :=
  normalize_rows_have_columns_key_set.1 exDirectTable
    ⟨["a", "b"], [[("a", .num 1), ("b", .undef)]]⟩ rfl
    [("a", .num 1), ("b", .undef)] (by simp) "b"

/-! ## The declarative spec generator: unrecognized kinds -/

/-- Erase the `axis.labelAngle` setting of the x channel — exactly the
difference between the `column` branch and the default branch of
`sqlTableToVegaLiteSpec`. -/
def clearXAxisAngle (sp : VegaLiteSpec) : VegaLiteSpec :=
  { sp with encodingX := sp.encodingX.map (fun c => { c with axisLabelAngle := none }) }

/-- A concrete two-column table for the generator examples. -/
def exTable9 : NormalizedTable :=
  ⟨["label", "value"], [[("label", .str "a"), ("value", .num 1)]]⟩

/-- Options with an unrecognized chart kind. -/
def exOptsFoo : SpecOptions := ⟨"foo", none, none, none, none, none⟩

/-- Options with kind `column`. -/
def exOptsColumn : SpecOptions := ⟨"column", none, none, none, none, none⟩

/-- C9 counterexample: for an unrecognized kind the generated spec is not
exactly the `column` spec — the default branch omits the x-axis
`labelAngle` setting. -/
theorem default_kind_spec_not_equal_column :
    sqlTableToVegaLiteSpec exTable9 exOptsFoo ≠
      sqlTableToVegaLiteSpec exTable9 exOptsColumn := by
  intro h
  have h2 := congrArg
    (Option.map (fun sp => sp.encodingX.map (fun c => c.axisLabelAngle))) h
  exact absurd h2 (by decide)

/-- C9 (amended): for every table and options, an unrecognized chart kind
produces exactly the `column` spec with the x-axis `labelAngle` setting
removed. -/
theorem default_kind_matches_column_except_axis (t : NormalizedTable) (opts : SpecOptions)
    (h : opts.chartType ∉ (["bar", "column", "line", "point", "area", "arc"] : List String)) :
    sqlTableToVegaLiteSpec t opts =
      (sqlTableToVegaLiteSpec t
        ⟨"column", opts.xKey, opts.yKey, opts.limit, opts.width, opts.height⟩).map
        clearXAxisAngle := by
  simp only [List.mem_cons, List.mem_singleton, not_or] at h
  obtain ⟨h1, h2, h3, h4, h5, h6⟩ := h
  have hb1 : (opts.chartType == "bar") = false := by simp [h1]
  have hb2 : (opts.chartType == "column") = false := by simp [h2]
  have hb3 : (opts.chartType == "line") = false := by simp [h3]
  have hb4 : (opts.chartType == "point") = false := by simp [h4]
  have hb5 : (opts.chartType == "area") = false := by simp [h5]
  have hb6 : (opts.chartType == "arc") = false := by simp [h6]
  unfold sqlTableToVegaLiteSpec
  by_cases hc : t.columns.length = 0 ∨ t.rows.length = 0
  · rw [if_pos hc, if_pos hc]
    rfl
  · rw [if_neg hc, if_neg hc]
    dsimp only
    by_cases hf :
        (jsOptFalsy ((opts.xKey).orElse (fun _ => (pickEncodingKeys t.columns t.rows).xKey))
          || jsOptFalsy ((opts.yKey).orElse (fun _ => (pickEncodingKeys t.columns t.rows).yKey)))
          = true
    · rw [if_pos hf, if_pos hf]
      rfl
    · rw [if_neg hf, if_neg hf]
      cases hxk : (opts.xKey).orElse (fun _ => (pickEncodingKeys t.columns t.rows).xKey) with
      | none => rfl
      | some xk =>
        cases hyk : (opts.yKey).orElse (fun _ => (pickEncodingKeys t.columns t.rows).yKey) with
        | none => rfl
        | some yk =>
          dsimp only
          rw [if_neg (by rw [hb1]; exact Bool.false_ne_true),
            if_neg (by rw [hb2]; exact Bool.false_ne_true),
            if_neg (by rw [hb3, hb4]; exact Bool.false_ne_true),
            if_neg (by rw [hb5]; exact Bool.false_ne_true),
            if_neg (by rw [hb6]; exact Bool.false_ne_true)]
          rfl

/-- C9 witness: the amended equation at the concrete table and the
unrecognized kind `"foo"`. -/
theorem default_kind_matches_column_except_axis_witness :
    sqlTableToVegaLiteSpec exTable9 exOptsFoo =
      (sqlTableToVegaLiteSpec exTable9
        ⟨"column", exOptsFoo.xKey, exOptsFoo.yKey, exOptsFoo.limit, exOptsFoo.width,
          exOptsFoo.height⟩).map clearXAxisAngle :=
  default_kind_matches_column_except_axis exTable9 exOptsFoo (by decide)

/-! ## Order properties of the sort comparator -/

theorem cmpChars_cases (a b : List Char) :
    cmpChars a b = -1 ∨ cmpChars a b = 0 ∨ cmpChars a b = 1 := by
  induction a generalizing b with
  | nil => cases b <;> simp [cmpChars]
  | cons x xs ih =>
    cases b with
    | nil => simp [cmpChars]
    | cons y ys =>
      simp only [cmpChars]
      split_ifs with h1 h2
      · exact Or.inl rfl
      · exact Or.inr (Or.inr rfl)
      · exact ih ys

theorem cmpChars_eq_zero_iff (a b : List Char) : cmpChars a b = 0 ↔ a = b := by
  induction a generalizing b with
  | nil => cases b <;> simp [cmpChars]
  | cons x xs ih =>
    cases b with
    | nil => simp [cmpChars]
    | cons y ys =>
      simp only [cmpChars]
      split_ifs with h1 h2
      · constructor
        · intro hc
          exact absurd hc (by decide)
        · intro heq
          injection heq with hxy _
          exact absurd hxy (ne_of_lt h1)
      · constructor
        · intro hc
          exact absurd hc (by decide)
        · intro heq
          injection heq with hxy _
          exact absurd hxy.symm (ne_of_lt h2)
      · have hxy : x = y := le_antisymm (not_lt.mp h2) (not_lt.mp h1)
        simp [hxy, ih ys]

theorem cmpChars_swap (a b : List Char) : cmpChars b a = -cmpChars a b := by
  induction a generalizing b with
  | nil => cases b <;> simp [cmpChars]
  | cons x xs ih =>
    cases b with
    | nil => simp [cmpChars]
    | cons y ys =>
      simp only [cmpChars]
      rcases lt_trichotomy x y with h | h | h
      · rw [if_neg (asymm h), if_pos h, if_pos h]
        decide
      · subst h
        rw [if_neg (lt_irrefl x), if_neg (lt_irrefl x), if_neg (lt_irrefl x),
          if_neg (lt_irrefl x)]
        exact ih ys
      · rw [if_pos h, if_neg (asymm h), if_pos h]

theorem cmpChars_neg_trans (a b c : List Char) (h1 : cmpChars a b < 0)
    (h2 : cmpChars b c < 0) : cmpChars a c < 0 := by
  induction a generalizing b c with
  | nil =>
    cases c with
    | nil =>
      cases b with
      | nil => simp [cmpChars] at h2
      | cons y ys => simp [cmpChars] at h2
    | cons z zs => simp [cmpChars]
  | cons x xs ih =>
    cases b with
    | nil => simp [cmpChars] at h1
    | cons y ys =>
      cases c with
      | nil => simp [cmpChars] at h2
      | cons z zs =>
        simp only [cmpChars] at h1 h2 ⊢
        rcases lt_trichotomy x y with hxy | hxy | hxy
        · rcases lt_trichotomy y z with hyz | hyz | hyz
          · rw [if_pos (lt_trans hxy hyz)]
            decide
          · subst hyz
            rw [if_pos hxy]
            decide
          · rw [if_neg (asymm hyz), if_pos hyz] at h2
            exact absurd h2 (by decide)
        · subst hxy
          rw [if_neg (lt_irrefl x), if_neg (lt_irrefl x)] at h1
          rcases lt_trichotomy x z with hxz | hxz | hxz
          · rw [if_pos hxz]
            decide
          · subst hxz
            rw [if_neg (lt_irrefl x), if_neg (lt_irrefl x)] at h2 ⊢
            exact ih ys zs h1 h2
          · rw [if_neg (asymm hxz), if_pos hxz] at h2
            exact absurd h2 (by decide)
        · rw [if_neg (asymm hxy), if_pos hxy] at h1
          exact absurd h1 (by decide)

theorem localeCompare_cases (a b : String) :
    localeCompare a b = -1 ∨ localeCompare a b = 0 ∨ localeCompare a b = 1 :=
  cmpChars_cases _ _

theorem localeCompare_eq_zero_iff (a b : String) : localeCompare a b = 0 ↔ a = b := by
  unfold localeCompare
  rw [cmpChars_eq_zero_iff]
  constructor
  · intro h
    exact String.ext h
  · rintro rfl
    rfl

theorem localeCompare_swap (a b : String) : localeCompare b a = -localeCompare a b :=
  cmpChars_swap _ _

theorem localeCompare_neg_trans (a b c : String) (h1 : localeCompare a b < 0)
    (h2 : localeCompare b c < 0) : localeCompare a c < 0 :=
  cmpChars_neg_trans _ _ _ h1 h2

theorem sortKeyLt_trans (s : SortBy) (a b c : Row) (h1 : sortKeyLt s a b)
    (h2 : sortKeyLt s b c) : sortKeyLt s a c := by
  cases s <;> simp only [sortKeyLt] at h1 h2 ⊢
  · exact lt_trans h2 h1
  · exact lt_trans h1 h2
  · exact localeCompare_neg_trans _ _ _ h1 h2
  · exact localeCompare_neg_trans _ _ _ h2 h1

theorem sortKeyEq_symm (s : SortBy) (a b : Row) (h : sortKeyEq s a b) :
    sortKeyEq s b a := by
  cases s <;> simp only [sortKeyEq, localeCompare_eq_zero_iff] at h ⊢ <;> exact h.symm

theorem sortKeyEq_trans (s : SortBy) (a b c : Row) (h1 : sortKeyEq s a b)
    (h2 : sortKeyEq s b c) : sortKeyEq s a c := by
  cases s <;> simp only [sortKeyEq, localeCompare_eq_zero_iff] at h1 h2 ⊢
  · exact h1.trans h2
  · exact h1.trans h2
  · exact h1.trans h2
  · exact h2.trans h1

theorem sortKeyLt_of_lt_of_eq (s : SortBy) (a b c : Row) (h1 : sortKeyLt s a b)
    (h2 : sortKeyEq s b c) : sortKeyLt s a c := by
  cases s <;>
    simp only [sortKeyLt, sortKeyEq, localeCompare_eq_zero_iff] at h1 h2 ⊢
  · rw [← h2]
    exact h1
  · rw [← h2]
    exact h1
  · rw [← h2]
    exact h1
  · rw [h2]
    exact h1

theorem sortKeyLt_of_eq_of_lt (s : SortBy) (a b c : Row) (h1 : sortKeyEq s a b)
    (h2 : sortKeyLt s b c) : sortKeyLt s a c := by
  cases s <;>
    simp only [sortKeyLt, sortKeyEq, localeCompare_eq_zero_iff] at h1 h2 ⊢
  · rw [h1]
    exact h2
  · rw [h1]
    exact h2
  · rw [h1]
    exact h2
  · rw [← h1]
    exact h2

theorem not_sortKeyLt_of_eq (s : SortBy) (a b : Row) (h : sortKeyEq s a b) :
    ¬ sortKeyLt s a b := by
  cases s <;> simp only [sortKeyLt, sortKeyEq, localeCompare_eq_zero_iff] at h ⊢
  · rw [h]
    exact lt_irrefl _
  · rw [h]
    exact lt_irrefl _
  · rw [h]
    have hz := localeCompare_eq_zero_iff
      (representativeLabel b) (representativeLabel b) |>.mpr rfl
    omega
  · rw [h]
    have hz := localeCompare_eq_zero_iff
      (representativeLabel a) (representativeLabel a) |>.mpr rfl
    omega

theorem sortKey_trichotomy (s : SortBy) (a b : Row) :
    sortKeyLt s a b ∨ sortKeyEq s a b ∨ sortKeyLt s b a := by
  cases s <;> simp only [sortKeyLt, sortKeyEq]
  · rcases lt_trichotomy (representativeValue a) (representativeValue b) with h | h | h
    · exact Or.inr (Or.inr h)
    · exact Or.inr (Or.inl h)
    · exact Or.inl h
  · rcases lt_trichotomy (representativeValue a) (representativeValue b) with h | h | h
    · exact Or.inl h
    · exact Or.inr (Or.inl h)
    · exact Or.inr (Or.inr h)
  · rcases localeCompare_cases (representativeLabel a) (representativeLabel b) with h | h | h
    · exact Or.inl (by omega)
    · exact Or.inr (Or.inl h)
    · refine Or.inr (Or.inr ?_)
      have hs := localeCompare_swap (representativeLabel a) (representativeLabel b)
      omega
  · rcases localeCompare_cases (representativeLabel b) (representativeLabel a) with h | h | h
    · exact Or.inl (by omega)
    · exact Or.inr (Or.inl h)
    · refine Or.inr (Or.inr ?_)
      have hs := localeCompare_swap (representativeLabel b) (representativeLabel a)
      omega

instance (s : SortBy) : IsTrans (Nat × Row) (tagLe s) := ⟨by
  intro a b c hab hbc
  rcases hab with hab | ⟨hab, hia⟩
  · rcases hbc with hbc | ⟨hbc, _⟩
    · exact Or.inl (sortKeyLt_trans s _ _ _ hab hbc)
    · exact Or.inl (sortKeyLt_of_lt_of_eq s _ _ _ hab hbc)
  · rcases hbc with hbc | ⟨hbc, hib⟩
    · exact Or.inl (sortKeyLt_of_eq_of_lt s _ _ _ hab hbc)
    · exact Or.inr ⟨sortKeyEq_trans s _ _ _ hab hbc, le_trans hia hib⟩⟩

instance (s : SortBy) : IsTotal (Nat × Row) (tagLe s) := ⟨by
  intro a b
  rcases sortKey_trichotomy s a.2 b.2 with h | h | h
  · exact Or.inl (Or.inl h)
  · rcases Nat.le_total a.1 b.1 with hle | hle
    · exact Or.inl (Or.inr ⟨h, hle⟩)
    · exact Or.inr (Or.inr ⟨sortKeyEq_symm s _ _ h, hle⟩)
  · exact Or.inr (Or.inl h)⟩

theorem rowComparator_lt_zero_iff (s : SortBy) (a b : Row) :
    rowComparator s a b < 0 ↔ sortKeyLt s a b := by
  cases s <;> simp only [rowComparator, sortKeyLt]
  · exact sub_neg
  · exact sub_neg
  · exact Int.cast_lt_zero
  · exact Int.cast_lt_zero

theorem rowComparator_eq_zero_iff (s : SortBy) (a b : Row) :
    rowComparator s a b = 0 ↔ sortKeyEq s a b := by
  cases s <;> simp only [rowComparator, sortKeyEq]
  · rw [sub_eq_zero]
    exact eq_comm
  · exact sub_eq_zero
  · exact Int.cast_eq_zero
  · exact Int.cast_eq_zero

/-- Example rows with representative values 1, 3, 2 and a fourth row tied
at 2 (labels make the tied rows distinguishable). -/
def exRow1 : Row := [("label", .str "a"), ("value", .num 1)]

def exRow2 : Row := [("label", .str "b"), ("value", .num 3)]

def exRow3 : Row := [("label", .str "c"), ("value", .num 2)]

def exRow4 : Row := [("label", .str "d"), ("value", .num 2)]

/-- C7: `sortRows` with `value_desc` yields rows in non-increasing order
of representative value and permutes the input; representative values
`[1,3,2,2]` come out as `[3,2,2,1]` with the tied rows in input order;
and for every sort order the underlying index-tagged sort is stable —
rows whose comparator ties (`rowComparator = 0`) keep their original
relative order. -/
theorem sortRows_value_desc_and_stability :
    (∀ rows, (sortRows rows .value_desc).Pairwise
        (fun r1 r2 => representativeValue r2 ≤ representativeValue r1))
    ∧ (∀ rows s, (sortRows rows s).Perm rows)
    ∧ ([exRow1, exRow2, exRow3, exRow4].map representativeValue = [1, 3, 2, 2]
        ∧ sortRows [exRow1, exRow2, exRow3, exRow4] .value_desc
          = [exRow2, exRow3, exRow4, exRow1])
    ∧ (∀ (rows : List Row) (s : SortBy), ((rows.enum).insertionSort (tagLe s)).Pairwise
        (fun a b => rowComparator s a.2 b.2 = 0 → a.1 ≤ b.1)) := by
  have hsorted : ∀ rows : List Row, (sortRows rows .value_desc).Pairwise
      (fun r1 r2 => representativeValue r2 ≤ representativeValue r1) := by
    intro rows
    unfold sortRows
    have hs := List.sorted_insertionSort (tagLe .value_desc) rows.enum
    refine List.Pairwise.map _ (fun a b hab => ?_) hs
    rcases hab with hab | ⟨hab, _⟩
    · exact le_of_lt hab
    · exact le_of_eq hab.symm
  have hstable : ∀ (rows : List Row) (s : SortBy),
      ((rows.enum).insertionSort (tagLe s)).Pairwise
        (fun a b => rowComparator s a.2 b.2 = 0 → a.1 ≤ b.1) := by
    intro rows s
    have hs := List.sorted_insertionSort (tagLe s) rows.enum
    refine List.Pairwise.imp ?_ hs
    intro a b hab hcmp
    rcases hab with hab | ⟨_, hle⟩
    · exact absurd hab
        (not_sortKeyLt_of_eq s _ _ ((rowComparator_eq_zero_iff s _ _).mp hcmp))
    · exact hle
  exact ⟨hsorted, sortRows_perm, ⟨rfl, rfl⟩, hstable⟩

/-! ## Injectivity of the decimal column names `col_1 .. col_N` -/

theorem digitsToNat_foldl_aux (cs : List Char) (a : Nat) :
    cs.foldl (fun n c => n * 10 + (c.toNat - '0'.toNat)) a
      = a * 10 ^ cs.length + digitsToNat cs := by
  induction cs generalizing a with
  | nil => simp [digitsToNat]
  | cons x xs ih =>
    show xs.foldl _ (a * 10 + (x.toNat - '0'.toNat)) = _
    rw [ih]
    have hx : digitsToNat (x :: xs) =
        (x.toNat - '0'.toNat) * 10 ^ xs.length + digitsToNat xs := by
      show xs.foldl _ (0 * 10 + (x.toNat - '0'.toNat)) = _
      rw [ih]
      ring
    rw [hx, List.length_cons]
    ring

theorem digitsToNat_cons (c : Char) (cs : List Char) :
    digitsToNat (c :: cs) = (c.toNat - '0'.toNat) * 10 ^ cs.length + digitsToNat cs := by
  show cs.foldl _ (0 * 10 + (c.toNat - '0'.toNat)) = _
  rw [digitsToNat_foldl_aux]
  ring

theorem digitChar_val (d : Nat) (h : d < 10) :
    (Nat.digitChar d).toNat - '0'.toNat = d := by
  interval_cases d <;> rfl

theorem digitsToNat_toDigitsCore (f : Nat) :
    ∀ (n : Nat) (acc : List Char), n < 10 ^ f →
      digitsToNat (Nat.toDigitsCore 10 f n acc) = n * 10 ^ acc.length + digitsToNat acc := by
  induction f with
  | zero =>
    intro n acc hf
    have hn : n = 0 := by simpa using hf
    subst hn
    simp [Nat.toDigitsCore]
  | succ f ih =>
    intro n acc hf
    rw [Nat.toDigitsCore]
    by_cases h0 : n / 10 = 0
    · rw [if_pos h0]
      rw [digitsToNat_cons, digitChar_val _ (Nat.mod_lt n (by norm_num))]
      have hn : n % 10 = n := by omega
      rw [hn]
    · rw [if_neg h0]
      have hlt : n / 10 < 10 ^ f := by
        refine (Nat.div_lt_iff_lt_mul (by norm_num)).mpr ?_
        rw [← Nat.pow_succ]
        exact hf
      rw [ih (n / 10) (Nat.digitChar (n % 10) :: acc) hlt]
      rw [digitsToNat_cons, digitChar_val _ (Nat.mod_lt n (by norm_num))]
      rw [List.length_cons]
      have hdm : 10 * (n / 10) + n % 10 = n := Nat.div_add_mod n 10
      conv_rhs => rw [← hdm]
      ring

theorem digitsToNat_toDigits (n : Nat) : digitsToNat (Nat.toDigits 10 n) = n := by
  unfold Nat.toDigits
  have hbound : n < 10 ^ (n + 1) :=
    lt_of_lt_of_le (Nat.lt_pow_self (by norm_num) n)
      (Nat.pow_le_pow_right (by norm_num) (Nat.le_succ n))
  rw [digitsToNat_toDigitsCore (n + 1) n [] hbound]
  simp [digitsToNat]

theorem natToString_injective : Function.Injective (fun n : Nat => toString n) := by
  intro m n h
  have hdata : Nat.toDigits 10 m = Nat.toDigits 10 n := congrArg String.data h
  have hm := digitsToNat_toDigits m
  have hn := digitsToNat_toDigits n
  rw [← hm, ← hn, hdata]

theorem colName_injective : Function.Injective (fun i : Nat => "col_" ++ toString (i + 1)) := by
  intro a b h
  have hdata := congrArg String.data h
  rw [String.data_append, String.data_append] at hdata
  have h2 : (toString (a + 1)).data = (toString (b + 1)).data :=
    List.append_cancel_left hdata
  have h3 : toString (a + 1) = toString (b + 1) := String.ext h2
  have h4 := natToString_injective h3
  omega

theorem tupleColumns_nodup (maxLen : Nat) : (tupleColumns maxLen).Nodup := by
  unfold tupleColumns
  split
  · decide
  · exact List.Nodup.map colName_injective (List.nodup_range maxLen)

/-! ## The tuple-array fold computes the maximum element length -/

theorem foldl_max_init_le (l : List JsonVal) (init : Nat) :
    init ≤ l.foldl (fun m r => max m (elemList r).length) init := by
  induction l generalizing init with
  | nil => simp
  | cons x xs ih => exact le_trans (le_max_left _ _) (ih _)

theorem elem_le_foldl_max (l : List JsonVal) (init : Nat) :
    ∀ e ∈ l, (elemList e).length ≤ l.foldl (fun m r => max m (elemList r).length) init := by
  induction l generalizing init with
  | nil => simp
  | cons x xs ih =>
    intro e he
    rcases List.mem_cons.mp he with rfl | he
    · exact le_trans (le_max_right _ _) (foldl_max_init_le xs _)
    · exact ih _ e he

theorem foldl_max_attained (l : List JsonVal) (init : Nat) :
    l.foldl (fun m r => max m (elemList r).length) init = init
    ∨ ∃ e ∈ l, l.foldl (fun m r => max m (elemList r).length) init = (elemList e).length := by
  induction l generalizing init with
  | nil => exact Or.inl rfl
  | cons x xs ih =>
    rcases ih (max init (elemList x).length) with h | ⟨e, he, hh⟩
    · rcases le_or_lt (elemList x).length init with hle | hlt
      · left
        rw [List.foldl_cons, h]
        exact max_eq_left hle
      · right
        refine ⟨x, List.mem_cons_self x xs, ?_⟩
        rw [List.foldl_cons, h]
        exact max_eq_right hlt.le
    · right
      exact ⟨e, List.mem_cons_of_mem x he, by rw [List.foldl_cons]; exact hh⟩

/-- C6: for tuple-array input (first element an array), the columns are
`["label","value"]` exactly when the maximum element length across all
elements is 2, and `col_1 .. col_N` otherwise with `N` that maximum
(which bounds every element's length and is attained); there is one
output row per element, and position `j` of row `i` holds element `i`'s
entry `j` when it exists and the absent (`undefined`) value when the row
is shorter. -/
theorem tuple_array_columns_and_padding (a rest : List JsonVal) (t : NormalizedTable)
    (h : normalizeSqlResult (.arr (.arr a :: rest)) = .ok (some t)) :
    t.columns =
      (if tupleMaxLen (.arr a :: rest) = 2 then ["label", "value"]
        else (List.range (tupleMaxLen (.arr a :: rest))).map
          (fun i => "col_" ++ toString (i + 1)))
    ∧ t.columns.length = tupleMaxLen (.arr a :: rest)
    ∧ (∀ e ∈ (.arr a :: rest : List JsonVal),
        (elemList e).length ≤ tupleMaxLen (.arr a :: rest))
    ∧ (tupleMaxLen (.arr a :: rest) = 0
        ∨ ∃ e ∈ (.arr a :: rest : List JsonVal),
            tupleMaxLen (.arr a :: rest) = (elemList e).length)
    ∧ t.rows.length = (.arr a :: rest : List JsonVal).length
    ∧ (∀ i, i < (.arr a :: rest : List JsonVal).length →
        ∀ j, j < tupleMaxLen (.arr a :: rest) →
          rowGet (t.rows.getD i []) (t.columns.getD j "") =
            (elemList ((.arr a :: rest : List JsonVal).getD i .undef)).getD j .undef) := by
  have h' : normalizeArray (.arr a :: rest) = .ok (some t) := by
    simp only [normalizeSqlResult] at h
    rwa [if_neg (by simp [jsFalsy])] at h
  unfold normalizeArray at h'
  rw [if_neg (by simp)] at h'
  simp only [List.headD_cons] at h'
  cases h'
  refine ⟨?_, ?_, elem_le_foldl_max _ 0, ?_, by simp, ?_⟩
  · rfl
  · unfold tupleColumns
    split
    · next h2 => simp [h2]
    · simp
  · exact foldl_max_attained _ 0
  · intro i hi j hj
    have hlen : j < (tupleColumns (tupleMaxLen (.arr a :: rest))).length := by
      unfold tupleColumns
      split
      · next h2 => simp [← h2] at hj ⊢; omega
      · simpa using hj
    have hrow : ((.arr a :: rest : List JsonVal).map
          (fun r => buildRow (tupleColumns (tupleMaxLen (.arr a :: rest)))
            (fun _ idx => (elemList r).getD idx .undef))).getD i []
        = buildRow (tupleColumns (tupleMaxLen (.arr a :: rest)))
            (fun _ idx =>
              (elemList ((.arr a :: rest : List JsonVal).getD i .undef)).getD idx .undef) := by
      rw [List.getD_eq_getElem _ _ (by simpa using hi), List.getElem_map,
        List.getD_eq_getElem _ _ hi]
    rw [hrow, buildRow_eq_enumMap _ _ (tupleColumns_nodup _), List.enum_eq_enumFrom]
    show rowGet _ ((tupleColumns (tupleMaxLen (.arr a :: rest))).getD j "") = _
    rw [rowGet_enumFrom_map
      (fun _ idx => (elemList ((JsonVal.arr a :: rest).getD i JsonVal.undef)).getD idx .undef)
      _ 0 j (tupleColumns_nodup _) hlen]
    rw [Nat.zero_add]

/-- C6 witness: the tuple input `[["x"], [1,2,3]]` has maximum length 3,
so columns are `col_1 .. col_3`, and the short first row is padded with
the absent value at position 3. -/
theorem tuple_array_columns_and_padding_witness :
    rowGet [("col_1", JsonVal.str "x"), ("col_2", JsonVal.undef), ("col_3", JsonVal.undef)]
      "col_3" = JsonVal.undef :=
  (tuple_array_columns_and_padding [.str "x"] [.arr [.num 1, .num 2, .num 3]]
    ⟨["col_1", "col_2", "col_3"],
      [[("col_1", .str "x"), ("col_2", .undef), ("col_3", .undef)],
       [("col_1", .num 1), ("col_2", .num 2), ("col_3", .num 3)]]⟩ rfl).2.2.2.2.2
    0 (by decide) 2 (by decide)
